import Mathlib

/-!
Verification of the extraction-and-diff engine of `src/bot.py`
(a Telegram bot that polls an odds API, extracts "under N goals" picks,
diffs them against the previous round, and notifies deltas).

The Python code is shallowly embedded:
* Python `float` values are modelled as exact rationals (`ℚ`); every value
  reaching a comparison here is a short decimal literal or a JSON number,
  so only exact equality/ordering is exercised, which `ℚ` models faithfully.
* Python strings are Lean `String`s (sequences of code points, as in CPython).
* The JSON payload (the result of `r.json()`) is the inductive `PyVal`, and
  functions that can raise a Python exception return `Except PyErr`.
* The regular expressions `RE_HOME_FMT` and `RE_OPT_UNDER` are embedded as
  backtracking matchers that follow the Python `re` engine's exploration
  order (lazy `.+?` groups extend shortest-first, greedy `\s*` retries
  longest-first, literals are matched case-insensitively);  `.` never
  matches a newline, as in `re` without DOTALL.
-/

/-! ### Character helpers (ASCII fragment of Python's str methods) -/

/-- Python `\s` / `str.strip` whitespace, ASCII fragment (the feed is ASCII
plus a few accented letters; no non-ASCII whitespace occurs). -/
def isWs (c : Char) : Bool :=
  c = ' ' ∨ c = '\t' ∨ c = '\n' ∨ c = '\r' ∨ c = '\x0b' ∨ c = '\x0c'

/-- Python `\d`, ASCII fragment. -/
def isDigitC (c : Char) : Bool := '0' ≤ c ∧ c ≤ '9'

/-- Python `str.lower`, ASCII fragment (the only letters compared after
lowering are in `"total de gols"`). -/
def lowerChar (c : Char) : Char :=
  if 'A' ≤ c ∧ c ≤ 'Z' then Char.ofNat (c.toNat + 32) else c

/-- Python `str.strip()` on a list of characters. -/
def stripChars (l : List Char) : List Char :=
  ((l.dropWhile isWs).reverse.dropWhile isWs).reverse

/-- Consume `\s*` greedily (the deterministic cases, where the next pattern
element cannot match a whitespace character). -/
def dropWs (s : List Char) : List Char := s.dropWhile isWs

/-! ### Decimal digit strings

Python's `str` on a float prints the shortest decimal; on the values
reachable here (non-negative decimal fractions parsed from the feed) that
is the exact decimal expansion with the minimal number of fractional
digits, and at least one fractional digit.  `natToDigits`, `minExpAux` and
`pyFloatStr` implement that printer over `ℚ`. -/

/-- Decimal digits of `n`, most significant first, accumulated onto `acc`.
The fuel argument only drives the recursion; `fuel = n` is always enough. -/
def natToDigitsAux : ℕ → ℕ → List Char → List Char
  | 0, _, acc => acc
  | fuel + 1, n, acc =>
      if n = 0 then acc
      else natToDigitsAux fuel (n / 10) (Nat.digitChar (n % 10) :: acc)

/-- Decimal representation of a natural number, as Python prints it. -/
def natToDigits (n : ℕ) : List Char :=
  if n = 0 then ['0'] else natToDigitsAux n n []

/-- Numeric value of a digit character. -/
def charDigitVal (c : Char) : ℕ := c.toNat - '0'.toNat

/-- Value of a string of decimal digits (most significant first). -/
def digitsVal (l : List Char) : ℕ :=
  l.foldl (fun a c => 10 * a + charDigitVal c) 0

/-- The digits of `m` left-padded with zeros to length `k` (the fractional
part of a fixed-point decimal). -/
def fracChars (k m : ℕ) : List Char :=
  List.replicate (k - (natToDigits m).length) '0' ++ natToDigits m

/-- Smallest number of times the denominator `d` must absorb a factor of 10
to reach 1; drives the shortest-decimal printer.  Fuel-driven, `fuel = d`
is always enough when `d` divides a power of 10. -/
def minExpAux : ℕ → ℕ → ℕ
  | 0, _ => 0
  | fuel + 1, d =>
      if d ≤ 1 then 0
      else
        if Nat.gcd d 10 ≤ 1 then 0
        else 1 + minExpAux fuel (d / Nat.gcd d 10)

/-- Minimal decimal exponent for a denominator. -/
def minExpD (d : ℕ) : ℕ := minExpAux d d

/-- Python's `str` on a (non-negative decimal) float: integer part, a dot,
and the minimal number of fractional digits, at least one (`str(2.0)` is
`"2.0"`, `str(1.5)` is `"1.5"`, `str(1.05)` is `"1.05"`).  The scaled value
`t` is `q * 10 ^ k`, computed on the normalized fraction to keep the
definition kernel-reducible. -/
def pyFloatStr (q : ℚ) : List Char :=
  let k := max 1 (minExpD q.den)
  let t := q.num.toNat * (10 ^ k / q.den)
  natToDigits (t / 10 ^ k) ++ '.' :: fracChars k (t % 10 ^ k)

/-- Value of a printed decimal (verification helper used to invert
`pyFloatStr`). -/
def decodeDec (s : List Char) : ℚ :=
  let ip := s.takeWhile (fun c => c ≠ '.')
  let fp := (s.dropWhile (fun c => c ≠ '.')).drop 1
  (digitsVal ip : ℚ) + (digitsVal fp : ℚ) / 10 ^ fp.length

/-! ### Python float() on decimal literals, and the helpers of bot.py -/

/-- Python `float(s)` on the decimal-literal fragment of its grammar
(`digits`, `digits.digits`, `digits.`, `.digits`): every string this
program passes to `float` after comma replacement is of that shape (regex
captures of `\d+(?:[.,]\d+)?` and JSON number strings). -/
def pyFloat? (s : List Char) : Option ℚ :=
  match s.dropWhile (fun c => c ≠ '.') with
  | [] =>
      if s.takeWhile (fun c => c ≠ '.') ≠ [] ∧
          (s.takeWhile (fun c => c ≠ '.')).all isDigitC then
        some (mkRat (digitsVal (s.takeWhile (fun c => c ≠ '.'))) 1)
      else none
  | _ :: fp =>
      if (s.takeWhile (fun c => c ≠ '.') ≠ [] ∨ fp ≠ []) ∧
          (s.takeWhile (fun c => c ≠ '.')).all isDigitC ∧ fp.all isDigitC then
        some (mkRat (digitsVal (s.takeWhile (fun c => c ≠ '.')) * 10 ^ fp.length +
          digitsVal fp) (10 ^ fp.length))
      else none

/-- Source: `to_float` (bot.py lines 43-49): `None` for the empty string,
otherwise `float(s.replace(",", "."))`, `None` on a parse failure. -/
def to_float (s : String) : Option ℚ :=
  if s = "" then none
  else pyFloat? (s.data.map (fun c => if c = ',' then '.' else c))

/-- Python `str.rstrip(c)`: remove every trailing occurrence of `c`. -/
def rstrip (c : Char) (s : List Char) : List Char :=
  (s.reverse.dropWhile (fun d => d = c)).reverse

/-- Round the fraction `a / b` (with `b > 0`) to the nearest integer, ties
to even — the rounding of Python's fixed-point float formatting (exact on
the decimal values reaching it here).  `n` is the floor, `r2` twice the
remainder. -/
def roundHalfEvenZ (a : ℤ) (b : ℕ) : ℤ :=
  let n := Int.fdiv a b
  let r2 := 2 * (a - n * b)
  if r2 < b then n else if r2 > b then n + 1 else if n % 2 = 0 then n else n + 1

/-- Python `f"{x:.2f}"`: sign, integer digits, dot, exactly two fractional
digits; the value rounded to cents is `roundHalfEvenZ` of `q * 100`. -/
def format2f (q : ℚ) : List Char :=
  let cents := roundHalfEvenZ (q.num * 100) q.den
  let m := cents.natAbs
  let body := natToDigits (m / 100) ++ '.' :: fracChars 2 (m % 100)
  if cents < 0 then '-' :: body else body

/-- Source: `fmt_odd` (bot.py lines 51-56): format to two decimal places,
then strip trailing zeros, then a trailing decimal point.  (`float(x)` on a
float never raises, so the `except` branch is dead.) -/
def fmt_odd (q : ℚ) : String :=
  ⟨rstrip '.' (rstrip '0' (format2f q))⟩

/-! ### The embedded regular expressions

Source: `RE_HOME_FMT` (bot.py lines 35-38) and `RE_OPT_UNDER` (line 41).
Both are matched with IGNORECASE; `RE_HOME_FMT` is applied with `.search`
but starts with `^` (and MULTILINE is off), so it is anchored at the start
and the tail of the string after `partida` is unconstrained; `RE_OPT_UNDER`
ends with `\s*$`, so it is anchored at both ends.  The lazy groups
`(?P<home>.+?)` and `(?P<away>.+?)` are explored shortest-first with
backtracking and cannot cross a newline; a greedy `\s*` standing before a
literal whose first character is not whitespace consumes exactly the
whitespace run (shorter attempts fail immediately), so those are embedded
as the deterministic `dropWs`.  A greedy `\s*` standing before a lazy
group is explored longest-first (`wsBack`). -/

/-- Match a literal case-insensitively at the head, returning the rest. -/
def stripCI : List Char → List Char → Option (List Char)
  | [], s => some s
  | _ :: _, [] => none
  | lc :: lit, c :: s => if lowerChar c = lowerChar lc then stripCI lit s else none

/-- Match `\d+(?:[.,]\d+)?` greedily at the head, returning the capture and
the rest.  (Greedy digit runs cannot be profitably shortened by the engine:
the following pattern elements never match a digit, so this deterministic
parse agrees with the backtracking engine.) -/
def parseNum (s : List Char) : Option (List Char × List Char) :=
  if (s.takeWhile isDigitC).isEmpty then none
  else
    match s.dropWhile isDigitC with
    | [] => some (s.takeWhile isDigitC, [])
    | c :: rest =>
        if c = '.' ∨ c = ',' then
          if (rest.takeWhile isDigitC).isEmpty then some (s.takeWhile isDigitC, c :: rest)
          else some (s.takeWhile isDigitC ++ c :: rest.takeWhile isDigitC,
            rest.dropWhile isDigitC)
        else some (s.takeWhile isDigitC, c :: rest)

/-- Match `\s*para\s*ter\s*menos\s*de\s*(\d+(?:[.,]\d+)?)\s*gols?\s*na\s*partida`
at the head of `s`, returning the line capture; the rest of `s` is
unconstrained (no `$` in `RE_HOME_FMT`).  The optional `s` of `gols?` is
deterministic: when the next character is `s`, not consuming it always
fails (`na` does not start with `s`, and `\s*` cannot consume `s`). -/
def matchTail (s : List Char) : Option (List Char) := do
  let s ← stripCI "para".data (dropWs s)
  let s ← stripCI "ter".data (dropWs s)
  let s ← stripCI "menos".data (dropWs s)
  let s ← stripCI "de".data (dropWs s)
  let (num, s) ← parseNum (dropWs s)
  let s ← stripCI "gol".data (dropWs s)
  let s := match stripCI ['s'] s with | some r => r | none => s
  let s ← stripCI "na".data (dropWs s)
  let _ ← stripCI "partida".data (dropWs s)
  some num

/-- Match `RE_OPT_UNDER`, i.e. `^\s*menos\s*de\s*(\d+(?:[.,]\d+)?)\s*$`
(IGNORECASE), returning the line capture.  `$` also matches just before a
final newline, but `\s*` absorbs any trailing whitespace including that
newline, so requiring the remainder to be empty after `dropWs` is exact. -/
def matchOptUnder (s : List Char) : Option (List Char) := do
  let s ← stripCI "menos".data (dropWs s)
  let s ← stripCI "de".data (dropWs s)
  let (num, s) ← parseNum (dropWs s)
  if (dropWs s).isEmpty then some num else none

/-- All the ways a greedy `\s*` can split `s`, ordered by increasing
consumption (the engine explores them in reverse: longest first). -/
def wsSplits : List Char → List (List Char)
  | [] => [[]]
  | c :: rest => (c :: rest) :: (if isWs c then wsSplits rest else [])

/-- Explore a greedy `\s*` before a lazy group: longest consumption first,
backtracking to shorter ones. -/
def wsBack (k : List Char → Option α) (s : List Char) : Option α :=
  (wsSplits s).reverse.findSome? k

/-- Explore a lazy `.+?` group: at least one character, never a newline,
shortest first; the continuation `k` receives the rest and the capture is
returned together with the continuation's result. -/
def lazyPlus (k : List Char → Option α) : List Char → Option (List Char × α)
  | [] => none
  | c :: rest =>
      if c = '\n' then none
      else
        match k rest with
        | some a => some ([c], a)
        | none =>
            match lazyPlus k rest with
            | some (h, a) => some (c :: h, a)
            | none => none

/-- Match `RE_HOME_FMT` at the start of `s` (the `^` anchor), returning the
`home`, `away` and `line` captures of the first match in the engine's
exploration order.  The `\s*` before the literal `(x)` and the `\s*`
between `de` and the digits are deterministic (`(` and digits are not
whitespace); the two `\s*` standing before the lazy groups backtrack. -/
def matchHomeFmt (s : List Char) : Option (List Char × List Char × List Char) :=
  wsBack (fun s1 =>
    lazyPlus (fun s2 =>
      match stripCI "(x)".data (dropWs s2) with
      | none => none
      | some s4 => wsBack (fun s5 => lazyPlus matchTail s5) s4) s1) s

/-- Source: `parse_under_from_home_text` (bot.py lines 120-131): `None` for
a falsy (empty) string or a non-match, otherwise the stripped `home`,
`away` and `line` captures. -/
def parse_under_from_home_text (home_text : String) : Option (String × String × String) :=
  if home_text = "" then none
  else
    (matchHomeFmt home_text.data).map fun r =>
      (⟨stripChars r.1⟩, ⟨stripChars r.2.1⟩, ⟨stripChars r.2.2⟩)

/-- Source: `parse_line_from_option_name` (bot.py lines 133-142): `None`
for a falsy (empty) string or a non-match, otherwise the stripped line
capture. -/
def parse_line_from_option_name (opt_name : String) : Option String :=
  if opt_name = "" then none
  else (matchOptUnder opt_name.data).map fun n => ⟨stripChars n⟩

/-! ### Python values and the payload

`PyVal` models the Python values a parsed JSON document can contain
(CPython's json module distinguishes int and float).  Functions that can
raise model the exception as `Except PyErr`. -/

/-- Python exception kinds raised by the extraction code. -/
inductive PyErr where
  | attributeError
  | typeError
deriving DecidableEq, Repr

/-- A Python value as produced by parsing JSON. -/
inductive PyVal where
  | none
  | bool (b : Bool)
  | int (n : ℤ)
  | float (q : ℚ)
  | str (s : String)
  | list (xs : List PyVal)
  | dict (kvs : List (String × PyVal))

/-- Python truthiness. -/
def PyVal.truthy : PyVal → Bool
  | .none => false
  | .bool b => b
  | .int n => n ≠ 0
  | .float q => q ≠ 0
  | .str s => s ≠ ""
  | .list xs => ¬xs.isEmpty
  | .dict kvs => ¬kvs.isEmpty

/-- Python `a or b` (short-circuit on truthiness). -/
def pyOr (a b : PyVal) : PyVal := if a.truthy then a else b

/-- First value bound to a key in a dict (Python dicts have unique keys;
the model tolerates duplicates by taking the first). -/
def lookupKV : List (String × PyVal) → String → Option PyVal
  | [], _ => Option.none
  | (k, v) :: rest, key => if k = key then some v else lookupKV rest key

/-- Python `x.get(key)`: `None` when absent, `AttributeError` when `x` is
not a dict. -/
def PyVal.get : PyVal → String → Except PyErr PyVal
  | .dict kvs, key => .ok ((lookupKV kvs key).getD .none)
  | _, _ => .error .attributeError

/-- Python `x.get(key, default)`. -/
def PyVal.getD : PyVal → String → PyVal → Except PyErr PyVal
  | .dict kvs, key, dflt => .ok ((lookupKV kvs key).getD dflt)
  | _, _, _ => .error .attributeError

/-- Python `for x in v`: list elements, dict keys, string characters;
`TypeError` on non-iterables. -/
def pyIter : PyVal → Except PyErr (List PyVal)
  | .list xs => .ok xs
  | .dict kvs => .ok (kvs.map fun kv => .str kv.1)
  | .str s => .ok (s.data.map fun c => .str ⟨[c]⟩)
  | _ => .error .typeError

/-- Python `str(v)`.  Scalars are exact; the container reprs are modelled
approximately (no claim touches `str` of a container, and the feed's event
ids are ints or strings). -/
def PyVal.pyStr : PyVal → String
  | .none => "None"
  | .bool true => "True"
  | .bool false => "False"
  | .int n => toString n
  | .float q => ⟨pyFloatStr q⟩
  | .str s => s
  | .list _ => "<list>"
  | .dict _ => "<dict>"

/-- Python `v.strip()`: only strings have `.strip`; anything else raises
`AttributeError`. -/
def PyVal.pyStrip : PyVal → Except PyErr String
  | .str s => .ok ⟨stripChars s.data⟩
  | _ => .error .attributeError

/-- Python `str.lower` over a whole string (ASCII fragment). -/
def lowerStr (s : String) : String := ⟨s.data.map lowerChar⟩

/-- Python `float(v)` as used for the odd field, with `TypeError` and
`ValueError` both collapsed to `Option.none` (the source catches exactly
those two).  Strings go through the decimal-literal fragment after
stripping, as in `float(str)`. -/
def pyFloatOf : PyVal → Option ℚ
  | .int n => some (mkRat n 1)
  | .float q => some q
  | .bool b => some (if b then mkRat 1 1 else 0)
  | .str s => pyFloat? (stripChars s.data)
  | _ => Option.none

/-! ### The pick model

Source: class `UnderPick` (bot.py lines 59-74). -/

/-- One qualifying "under N goals" offer. -/
structure UnderPick where
  event_id : String
  home : String
  away : String
  line_raw : String
  line : ℚ
  odd : ℚ
deriving DecidableEq, Repr

/-- Source: `UnderPick.__init__`: strips the team names substituting
placeholders for empty ones, keeps the raw line text for display, parses
the numeric line with `to_float(line_raw) or 0.0`, and stores the odd. -/
def UnderPick.make (event_id home away line_raw : String) (odd : ℚ) : UnderPick :=
  { event_id := event_id
    home := if (⟨stripChars home.data⟩ : String) = "" then "Time da Casa"
            else ⟨stripChars home.data⟩
    away := if (⟨stripChars away.data⟩ : String) = "" then "Time Visitante"
            else ⟨stripChars away.data⟩
    line_raw := line_raw
    line := match to_float line_raw with
            | some l => if l = 0 then 0 else l
            | Option.none => 0
    odd := odd }

/-- Source: `UnderPick.key` (bot.py lines 68-71): the f-string
`event_id|under|line`, where `line` is interpolated with Python's float
`str`. -/
def UnderPick.key (p : UnderPick) : String :=
  p.event_id ++ "|under|" ++ (⟨pyFloatStr p.line⟩ : String)

/-- Source: `UnderPick.title` (bot.py lines 73-74). -/
def UnderPick.title (p : UnderPick) : String :=
  p.home ++ " (x) " ++ p.away ++ " para ter menos de " ++ p.line_raw ++
    " gols na partida"

/-! ### Message building

Source: bot.py lines 77-97. -/

/-- Source: `build_new_message`. -/
def build_new_message (p : UnderPick) : String :=
  "<b>🏠 Casa:</b> Betesporte\n" ++
    "<b>🎯 Mercado:</b> " ++ p.title ++ "\n\n" ++
    "📌 <b>Odd:</b> " ++ fmt_odd p.odd

/-- Source: `build_change_message`. -/
def build_change_message (p : UnderPick) (old_odd : ℚ) : String :=
  let arrow := if p.odd > old_odd then "📈" else if p.odd < old_odd then "📉" else "↔️"
  "<b>🔁 MUDANÇA DE ODD " ++ arrow ++ "</b>\n" ++
    "<b>🏠 Casa:</b> Betesporte\n" ++
    "<b>🎯 Mercado:</b> " ++ p.title ++ "\n\n" ++
    "📌 <b>Odd:</b> <s>" ++ fmt_odd old_odd ++ "</s> → <b>" ++ fmt_odd p.odd ++ "</b>"

/-- Source: `build_group_new_messages`: join the per-pick blocks with blank
lines; if the result exceeds 4096 characters, keep the first 4090 and
append an ellipsis. -/
def build_group_new_messages (picks : List UnderPick) : String :=
  if (String.intercalate "\n\n" (picks.map build_new_message)).length > 4096 then
    (⟨(String.intercalate "\n\n" (picks.map build_new_message)).data.take 4090⟩ : String) ++ "…"
  else String.intercalate "\n\n" (picks.map build_new_message)

/-! ### Extraction

Source: `extract_picks` (bot.py lines 144-195).  The nested `for` loops
are embedded as one recursive function per nesting level, each returning
`Except PyErr` so that a Python exception (a truthy non-iterable section, a
non-string name, ...) propagates exactly as it would to the `try` of
`run_bot`. -/

/-- Source: the options loop (bot.py lines 174-187): scan the options of a
`Total de Gols` market for the first one whose label matches `Menos de X`
with the same numeric line as the title, and whose odd parses; a matching
label with an unparsable odd does not stop the scan. -/
def scanOptions (line_f : ℚ) : List PyVal → Except PyErr (Option ℚ)
  | [] => .ok Option.none
  | opt :: rest => do
      let nameJ ← opt.get "name"
      let opt_name ← (pyOr nameJ (.str "")).pyStrip
      match parse_line_from_option_name opt_name with
      | Option.none => scanOptions line_f rest
      | some opt_line_raw =>
          if to_float opt_line_raw = some line_f then do
            let oddJ ← opt.get "odd"
            match pyFloatOf oddJ with
            | some odd => .ok (some odd)
            | Option.none => scanOptions line_f rest
          else scanOptions line_f rest

/-- Source: the markets loop (bot.py lines 170-189): only markets whose
stripped, lowered name is exactly `total de gols` are scanned; the first
market yielding an odd wins. -/
def scanMarkets (line_f : ℚ) : List PyVal → Except PyErr (Option ℚ)
  | [] => .ok Option.none
  | market :: rest => do
      let nameJ ← market.get "name"
      let mname ← (pyOr nameJ (.str "")).pyStrip
      if lowerStr mname ≠ "total de gols" then scanMarkets line_f rest
      else
        match ← scanOptions line_f (← pyIter (pyOr (← market.getD "options" (.list [])) (.list []))) with
        | some odd => .ok (some odd)
        | Option.none => scanMarkets line_f rest

/-- Source: the event body (bot.py lines 155-194): id fallback chain, title
match, numeric line parse, market scan, and the `UnderPick` construction. -/
def processEvent (event : PyVal) : Except PyErr (Option UnderPick) := do
  let idJ ← event.get "id"
  let idJ2 ← event.get "eventId"
  let event_id := pyOr idJ (pyOr idJ2 (.str ""))
  let home_text ← (pyOr (← event.get "homeTeamName") (.str "")).pyStrip
  match parse_under_from_home_text home_text with
  | Option.none => .ok Option.none
  | some (home, away, line_raw) =>
      match to_float line_raw with
      | Option.none => .ok Option.none
      | some line_f => do
          match ← scanMarkets line_f (← pyIter (pyOr (← event.getD "markets" (.list [])) (.list []))) with
          | Option.none => .ok Option.none
          | some odd => .ok (some (UnderPick.make event_id.pyStr home away line_raw odd))

/-- The events loop of one tournament. -/
def processEvents : List PyVal → Except PyErr (List UnderPick)
  | [] => .ok []
  | e :: rest => do
      let p ← processEvent e
      let ps ← processEvents rest
      .ok (p.toList ++ ps)

/-- The tournaments loop of one country. -/
def processTourns : List PyVal → Except PyErr (List UnderPick)
  | [] => .ok []
  | t :: rest => do
      let evs ← pyIter (pyOr (← t.getD "events" (.list [])) (.list []))
      let ps ← processEvents evs
      let rest' ← processTourns rest
      .ok (ps ++ rest')

/-- The countries loop. -/
def processCountries : List PyVal → Except PyErr (List UnderPick)
  | [] => .ok []
  | c :: rest => do
      let ts ← pyIter (pyOr (← c.getD "tournaments" (.list [])) (.list []))
      let ps ← processTourns ts
      let rest' ← processCountries rest
      .ok (ps ++ rest')

/-- Source: `extract_picks` (bot.py lines 144-195). -/
def extract_picks (payload : PyVal) : Except PyErr (List UnderPick) := do
  let dataJ ← (pyOr payload (.dict [])).get "data"
  let countriesJ ← (pyOr dataJ (.dict [])).get "countries"
  let countries ← pyIter (pyOr countriesJ (.list []))
  processCountries countries

/-! ### The per-round state and diff

Source: the body of `run_bot`'s `while` loop (bot.py lines 205-252).
`last_sent` is a Python dict from key strings to floats, modelled as an
association list with first-match lookup and in-place update. -/

/-- Python `last_sent.get(k)`. -/
def dget : List (String × ℚ) → String → Option ℚ
  | [], _ => Option.none
  | (k, v) :: rest, key => if k = key then some v else dget rest key

/-- Python `last_sent[k] = v` (replace the bound value, or append a new
binding). -/
def dset : List (String × ℚ) → String → ℚ → List (String × ℚ)
  | [], key, v => [(key, v)]
  | (k, w) :: rest, key, v =>
      if k = key then (k, v) :: rest else (k, w) :: dset rest key v

/-- Source: the classification loop (bot.py lines 213-218): a pick whose
key is absent is New, one whose stored odd differs is Changed carrying the
old odd, and one whose stored odd is equal is dropped.  The state is not
touched during this loop. -/
def classify (st : List (String × ℚ)) (picks : List UnderPick) :
    List UnderPick × List (UnderPick × ℚ) :=
  picks.foldl
    (fun acc p =>
      match dget st p.key with
      | Option.none => (acc.1 ++ [p], acc.2)
      | some prev => if p.odd ≠ prev then (acc.1, acc.2 ++ [(p, prev)]) else acc)
    ([], [])

/-- Source: the state-update loops (bot.py lines 221-224): write the
current odd for every New pick, then for every Changed pick. -/
def updateState (st : List (String × ℚ)) (new_picks : List UnderPick)
    (changed_picks : List (UnderPick × ℚ)) : List (String × ℚ) :=
  (new_picks.map (fun p => (p.key, p.odd)) ++
      changed_picks.map (fun pc => (pc.1.key, pc.1.odd))).foldl
    (fun s kv => dset s kv.1 kv.2) st

/-- The state after one round's classification and update. -/
def newState (st : List (String × ℚ)) (picks : List UnderPick) : List (String × ℚ) :=
  updateState st (classify st picks).1 (classify st picks).2

/-- One observable effect of a round, in program order. -/
inductive Effect where
  | setState (key : String) (odd : ℚ)
  | send (text : String)
deriving DecidableEq, Repr

/-- Is the effect a state write? -/
def Effect.isSet : Effect → Bool
  | .setState _ _ => true
  | .send _ => false

/-- The state writes of a round, in program order. -/
def stateWrites (st : List (String × ℚ)) (picks : List UnderPick) : List Effect :=
  (classify st picks).1.map (fun p => .setState p.key p.odd) ++
    (classify st picks).2.map (fun pc => .setState pc.1.key pc.1.odd)

/-- The notification sends of a round, in program order (bot.py lines
226-252): New picks first — one message each when
`SEND_EACH_EVENT_SEPARATELY`, otherwise one grouped message when the group
text is non-empty — then one message per Changed pick. -/
def sendEffects (sendSeparately : Bool) (st : List (String × ℚ))
    (picks : List UnderPick) : List Effect :=
  (if (classify st picks).1.isEmpty then []
   else if sendSeparately then
     (classify st picks).1.map (fun p => .send (build_new_message p))
   else if build_group_new_messages (classify st picks).1 = "" then []
   else [.send (build_group_new_messages (classify st picks).1)]) ++
    (classify st picks).2.map (fun pc => .send (build_change_message pc.1 pc.2))

/-- Source: the effect order of one successful round of `run_bot` (bot.py
lines 205-252): classification, then every state write, then every send. -/
def roundTrace (sendSeparately : Bool) (st : List (String × ℚ))
    (picks : List UnderPick) : List Effect :=
  stateWrites st picks ++ sendEffects sendSeparately st picks

/-! ### Concrete payloads used by the witnesses and counterexamples -/

/-- An event of the shape the spec's scenario describes. -/
def goodEvent : PyVal :=
  .dict [("id", .int 1),
         ("homeTeamName",
          .str "Palmeiras (x) River Plate para ter menos de 1.5 gols na partida"),
         ("markets", .list [
            .dict [("name", .str "Total de Gols"),
                   ("options", .list [
                      .dict [("name", .str "Menos de 2.5"), ("odd", .float (mkRat 12 10))],
                      .dict [("name", .str "Menos de 1.5"), ("odd", .float (mkRat 185 100))]])]])]

/-- A single-country, single-tournament payload holding the given events. -/
def mkPayload (events : List PyVal) : PyVal :=
  .dict [("data", .dict [("countries", .list [
    .dict [("tournaments", .list [
      .dict [("events", .list events)]])]])])]

/-- The pick `extract_picks` produces for `goodEvent`. -/
def pickG : UnderPick := UnderPick.make "1" "Palmeiras" "River Plate" "1.5" (mkRat 37 20)

/-- The same fixture with a different odd (for the duplicate-key payloads). -/
def goodEventOdd (odd : ℚ) : PyVal :=
  .dict [("id", .int 1),
         ("homeTeamName",
          .str "Palmeiras (x) River Plate para ter menos de 1.5 gols na partida"),
         ("markets", .list [
            .dict [("name", .str "Total de Gols"),
                   ("options", .list [
                      .dict [("name", .str "Menos de 1.5"), ("odd", .float odd)]])]])]

/-- A payload with two distinct events that share one identity key
(same id, same line) but carry different odds. -/
def dupPayload : PyVal :=
  mkPayload [goodEventOdd (mkRat 37 20), goodEventOdd (mkRat 39 20)]

/-- An event with a matching title whose markets section is the given
value. -/
def eventWithMarkets (markets : PyVal) : PyVal :=
  .dict [("id", .int 1),
         ("homeTeamName",
          .str "Palmeiras (x) River Plate para ter menos de 1.5 gols na partida"),
         ("markets", markets)]

/-- An event with a matching title and a `Total de Gols` market whose
options section is the given value. -/
def eventWithOptions (options : PyVal) : PyVal :=
  .dict [("id", .int 1),
         ("homeTeamName",
          .str "Palmeiras (x) River Plate para ter menos de 1.5 gols na partida"),
         ("markets", .list [.dict [("name", .str "Total de Gols"), ("options", options)]])]

/-- Classification of a single pick against the state, as an optional
Changed record (verification helper mirroring one loop step). -/
def changedOf (st : List (String × ℚ)) (p : UnderPick) : Option (UnderPick × ℚ) :=
  match dget st p.key with
  | some prev => if p.odd ≠ prev then some (p, prev) else Option.none
  | Option.none => Option.none

/-- The second pick `extract_picks` produces for `dupPayload`. -/
def pickG2 : UnderPick := UnderPick.make "1" "Palmeiras" "River Plate" "1.5" (mkRat 39 20)

/-- Number of events the payload's loops visit (the tournaments level),
with the same shape handling as `processTourns`. -/
def countEventsT : List PyVal → Except PyErr ℕ
  | [] => .ok 0
  | t :: rest => do
      let evs ← pyIter (pyOr (← t.getD "events" (.list [])) (.list []))
      let n ← countEventsT rest
      .ok (evs.length + n)

/-- Number of events the payload's loops visit (the countries level). -/
def countEventsC : List PyVal → Except PyErr ℕ
  | [] => .ok 0
  | c :: rest => do
      let ts ← pyIter (pyOr (← c.getD "tournaments" (.list [])) (.list []))
      let n ← countEventsT ts
      let n2 ← countEventsC rest
      .ok (n + n2)

/-- Number of events the payload's loops visit. -/
def countEvents (payload : PyVal) : Except PyErr ℕ := do
  let dataJ ← (pyOr payload (.dict [])).get "data"
  let countriesJ ← (pyOr dataJ (.dict [])).get "countries"
  let countries ← pyIter (pyOr countriesJ (.list []))
  countEventsC countries

/-- A payload whose countries list holds one country with the given
tournaments section. -/
def payloadWithTournaments (v : PyVal) : PyVal :=
  .dict [("data", .dict [("countries", .list [.dict [("tournaments", v)]])])]

/-- A payload whose single tournament has the given events section. -/
def payloadWithEvents (v : PyVal) : PyVal :=
  .dict [("data", .dict [("countries", .list [.dict [("tournaments",
    .list [.dict [("events", v)]])]])])]

/-- An event with a matching title and no markets key at all. -/
def eventNoMarkets : PyVal :=
  .dict [("id", .int 1),
         ("homeTeamName",
          .str "Palmeiras (x) River Plate para ter menos de 1.5 gols na partida")]

/-- Every character is whitespace (a `\s*` span). -/
def AllWs (w : List Char) : Prop := ∀ c ∈ w, isWs c = true

/-- Case-insensitive equality of character lists, as IGNORECASE compares. -/
def CiEq (a b : List Char) : Prop := a.map lowerChar = b.map lowerChar

/-- The exact shape of a `\d+(?:[.,]\d+)?` capture. -/
def NumShape (num : List Char) : Prop :=
  num ≠ [] ∧
    (num.all isDigitC = true ∨
      ∃ d1 c d2, num = d1 ++ c :: d2 ∧ d1 ≠ [] ∧ d2 ≠ [] ∧
        d1.all isDigitC = true ∧ d2.all isDigitC = true ∧ (c = '.' ∨ c = ','))

/-- The exact template accepted by `RE_OPT_UNDER`: optional whitespace,
`menos` (case-insensitive), optional whitespace, `de`, optional
whitespace, the line, optional trailing whitespace — anchored at both
ends. -/
def OptTemplate (s num : List Char) : Prop :=
  ∃ w1 m w2 d w3 w4,
    s = w1 ++ m ++ w2 ++ d ++ w3 ++ num ++ w4 ∧
    AllWs w1 ∧ CiEq m "menos".data ∧ AllWs w2 ∧ CiEq d "de".data ∧ AllWs w3 ∧
    NumShape num ∧ AllWs w4

/-- A non-negative decimal fraction — the exact values Python's
`float(...)` produces from the feed's numeric literals in this model. -/
def IsDecimal (q : ℚ) : Prop := ∃ (n k : ℕ), q = (n : ℚ) / 10 ^ k

/-! ### Lemmas about the diff state -/

theorem dget_dset (d : List (String × ℚ)) (k : String) (v : ℚ) (k' : String) :
    dget (dset d k v) k' = if k = k' then some v else dget d k' := by
  induction d with
  | nil => simp [dset, dget]
  | cons kv rest ih =>
      obtain ⟨k0, v0⟩ := kv
      simp only [dset]
      split_ifs with h0 <;> simp only [dget] <;> split_ifs <;> simp_all [dget, ih]

theorem classify_eq (st : List (String × ℚ)) (picks : List UnderPick) :
    classify st picks =
      (picks.filter (fun p => (dget st p.key).isNone), picks.filterMap (changedOf st)) := by
  have h : ∀ (l : List UnderPick) (acc : List UnderPick × List (UnderPick × ℚ)),
      l.foldl
        (fun acc p =>
          match dget st p.key with
          | Option.none => (acc.1 ++ [p], acc.2)
          | some prev => if p.odd ≠ prev then (acc.1, acc.2 ++ [(p, prev)]) else acc) acc =
      (acc.1 ++ l.filter (fun p => (dget st p.key).isNone),
       acc.2 ++ l.filterMap (changedOf st)) := by
    intro l
    induction l with
    | nil => intro acc; simp
    | cons p l ih =>
        intro acc
        rw [List.foldl_cons]
        cases hd : dget st p.key with
        | none =>
            rw [ih]
            simp [List.filter_cons, List.filterMap_cons, changedOf, hd]
        | some prev =>
            by_cases ho : p.odd = prev
            · rw [ih]
              simp [List.filter_cons, List.filterMap_cons, changedOf, hd, ho]
            · rw [ih]
              simp [List.filter_cons, List.filterMap_cons, changedOf, hd, ho]
  have h0 := h picks ([], [])
  simpa [classify] using h0

theorem dget_foldl_dset (ws : List (String × ℚ)) (st : List (String × ℚ)) (k : String) :
    dget (ws.foldl (fun s kv => dset s kv.1 kv.2) st) k =
      match ws.reverse.find? (fun kv => kv.1 == k) with
      | some kv => some kv.2
      | Option.none => dget st k := by
  induction ws generalizing st with
  | nil => simp
  | cons w ws ih =>
      rw [List.foldl_cons, ih, List.reverse_cons, List.find?_append]
      cases hf : ws.reverse.find? (fun kv => kv.1 == k) with
      | some kv => simp [Option.or]
      | none =>
          by_cases hw : w.1 = k
          · simp [List.find?, hw, Option.or, dget_dset]
          · have hb : (w.1 == k) = false := beq_eq_false_iff_ne.mpr hw
            simp [List.find?, hb, Option.or, dget_dset, hw]

/-- Claim C10: the round's state update writes only at the keys of picks
classified New or Changed; every other entry keeps its value and no entry
is removed. -/
theorem round_update_frame (st : List (String × ℚ)) (picks : List UnderPick) (k : String) :
    ((∀ p ∈ (classify st picks).1, p.key ≠ k) →
     (∀ pc ∈ (classify st picks).2, pc.1.key ≠ k) →
     dget (newState st picks) k = dget st k) ∧
    (∀ v : ℚ, dget st k = some v → (dget (newState st picks) k).isSome = true) := by
  have base :
      dget (newState st picks) k =
        match ((classify st picks).1.map (fun p => (p.key, p.odd)) ++
            (classify st picks).2.map fun pc => (pc.1.key, pc.1.odd)).reverse.find?
            (fun kv => kv.1 == k) with
        | some kv => some kv.2
        | Option.none => dget st k := by
    unfold newState updateState
    exact dget_foldl_dset _ st k
  constructor
  · intro hnew hchg
    rw [base]
    have hnone :
        ((classify st picks).1.map (fun p => (p.key, p.odd)) ++
            (classify st picks).2.map fun pc => (pc.1.key, pc.1.odd)).reverse.find?
          (fun kv => kv.1 == k) = Option.none := by
      rw [List.find?_eq_none]
      intro kv hkv
      rw [List.mem_reverse, List.mem_append] at hkv
      rcases hkv with h | h
      · obtain ⟨p, hp, rfl⟩ := List.mem_map.mp h
        simpa using hnew p hp
      · obtain ⟨pc, hpc, rfl⟩ := List.mem_map.mp h
        simpa using hchg pc hpc
    rw [hnone]
  · intro v hv
    rw [base]
    cases hf :
        ((classify st picks).1.map (fun p => (p.key, p.odd)) ++
            (classify st picks).2.map fun pc => (pc.1.key, pc.1.odd)).reverse.find?
          (fun kv => kv.1 == k) with
    | some kv => simp
    | none => simp [hv]

theorem mem_classify_fst_iff (S : List (String × ℚ)) (P : List UnderPick)
    (p : UnderPick) :
    p ∈ (classify S P).1 ↔ p ∈ P ∧ dget S p.key = Option.none := by
  rw [classify_eq]
  simp [List.mem_filter, Option.isNone_iff_eq_none]

theorem mem_classify_snd_iff (S : List (String × ℚ)) (P : List UnderPick)
    (p : UnderPick) (old : ℚ) :
    (p, old) ∈ (classify S P).2 ↔ p ∈ P ∧ dget S p.key = some old ∧ p.odd ≠ old := by
  rw [classify_eq]
  simp only [List.mem_filterMap]
  constructor
  · rintro ⟨a, ha, hf⟩
    unfold changedOf at hf
    split at hf
    · split at hf
      · rename_i prev hd ho
        rw [Option.some.injEq, Prod.mk.injEq] at hf
        obtain ⟨rfl, rfl⟩ := hf
        exact ⟨ha, hd, ho⟩
      · exact absurd hf (by simp)
    · exact absurd hf (by simp)
  · rintro ⟨hp, hd, ho⟩
    refine ⟨p, hp, ?_⟩
    unfold changedOf
    rw [hd]
    simp [ho]

/-- Claim C2: against prior state `S`, a pick is classified New exactly
when its key is absent, Changed (carrying the stored odd) exactly when its
key is present with a different odd, and a pick whose stored odd equals its
current odd is in neither output list. -/
theorem classify_new_changed_unchanged (S : List (String × ℚ)) (P : List UnderPick)
    (p : UnderPick) :
    (p ∈ (classify S P).1 ↔ p ∈ P ∧ dget S p.key = Option.none) ∧
    (∀ old : ℚ, ((p, old) ∈ (classify S P).2 ↔
      p ∈ P ∧ dget S p.key = some old ∧ p.odd ≠ old)) ∧
    (dget S p.key = some p.odd →
      p ∉ (classify S P).1 ∧ ∀ old : ℚ, (p, old) ∉ (classify S P).2) := by
  refine ⟨mem_classify_fst_iff S P p, fun old => mem_classify_snd_iff S P p old, ?_⟩
  intro hsame
  constructor
  · rw [mem_classify_fst_iff]
    simp [hsame]
  · intro old hmem
    obtain ⟨-, hd, ho⟩ := (mem_classify_snd_iff S P p old).mp hmem
    rw [hsame, Option.some.injEq] at hd
    exact ho hd

/-- Claim C3: in every round the trace is all state writes followed by all
sends, and every pick classified New or Changed has its key written with
its current odd among the state writes — hence before any send is
attempted. -/
theorem state_writes_precede_sends (sendSeparately : Bool) (st : List (String × ℚ))
    (picks : List UnderPick) :
    roundTrace sendSeparately st picks = stateWrites st picks ++ sendEffects sendSeparately st picks ∧
    (∀ e ∈ stateWrites st picks, e.isSet = true) ∧
    (∀ e ∈ sendEffects sendSeparately st picks, e.isSet = false) ∧
    (∀ p ∈ (classify st picks).1, Effect.setState p.key p.odd ∈ stateWrites st picks) ∧
    (∀ pc ∈ (classify st picks).2,
      Effect.setState pc.1.key pc.1.odd ∈ stateWrites st picks) := by
  refine ⟨rfl, ?_, ?_, ?_, ?_⟩
  · intro e he
    rw [stateWrites, List.mem_append] at he
    rcases he with h | h <;> obtain ⟨x, hx, rfl⟩ := List.mem_map.mp h <;> rfl
  · intro e he
    rw [sendEffects, List.mem_append] at he
    rcases he with h | h
    · split at h
      · exact absurd h (by simp)
      · split at h
        · obtain ⟨x, hx, rfl⟩ := List.mem_map.mp h
          rfl
        · split at h
          · exact absurd h (by simp)
          · rw [List.mem_singleton] at h
            subst h
            rfl
    · obtain ⟨x, hx, rfl⟩ := List.mem_map.mp h
      rfl
  · intro p hp
    rw [stateWrites, List.mem_append]
    exact Or.inl (List.mem_map.mpr ⟨p, hp, rfl⟩)
  · intro pc hpc
    rw [stateWrites, List.mem_append]
    exact Or.inr (List.mem_map.mpr ⟨pc, hpc, rfl⟩)

/-! ### Per-event pick bound (claims C1 and C5) -/

theorem processEvents_length (evs : List PyVal) (l : List UnderPick)
    (h : processEvents evs = .ok l) : l.length ≤ evs.length := by
  induction evs generalizing l with
  | nil =>
      unfold processEvents at h
      cases h
      simp
  | cons e rest ih =>
      unfold processEvents at h
      cases hp : processEvent e with
      | error err => rw [hp] at h; exact absurd h (by simp [Bind.bind, Except.bind])
      | ok p =>
          rw [hp] at h
          cases hps : processEvents rest with
          | error err => rw [hps] at h; exact absurd h (by simp [Bind.bind, Except.bind])
          | ok ps =>
              rw [hps] at h
              simp only [Bind.bind, Except.bind, Except.ok.injEq] at h
              subst h
              have hr := ih ps hps
              cases p <;> simp [Option.toList] <;> omega

theorem except_bind_ok {α β : Type} (a : α) (f : α → Except PyErr β) :
    (Except.ok a : Except PyErr α) >>= f = f a := rfl

theorem except_bind_error {α β : Type} (e : PyErr) (f : α → Except PyErr β) :
    (Except.error e : Except PyErr α) >>= f = .error e := rfl

theorem processTourns_length (ts : List PyVal) (l : List UnderPick)
    (h : processTourns ts = .ok l) : ∃ n, countEventsT ts = .ok n ∧ l.length ≤ n := by
  induction ts generalizing l with
  | nil =>
      unfold processTourns at h
      cases h
      exact ⟨0, rfl, by simp⟩
  | cons t rest ih =>
      unfold processTourns at h
      unfold countEventsT
      cases hg : t.getD "events" (.list []) with
      | error err =>
          rw [hg, except_bind_error] at h
          exact absurd h (by simp)
      | ok g =>
          rw [hg, except_bind_ok] at h
          cases hi : pyIter (pyOr g (.list [])) with
          | error err =>
              rw [hi, except_bind_error] at h
              exact absurd h (by simp)
          | ok evs =>
              rw [hi, except_bind_ok] at h
              rw [except_bind_ok, hi, except_bind_ok]
              cases hpe : processEvents evs with
              | error err =>
                  rw [hpe, except_bind_error] at h
                  exact absurd h (by simp)
              | ok ps =>
                  rw [hpe, except_bind_ok] at h
                  cases hpr : processTourns rest with
                  | error err =>
                      rw [hpr, except_bind_error] at h
                      exact absurd h (by simp)
                  | ok rs =>
                      rw [hpr, except_bind_ok] at h
                      simp only [Except.ok.injEq] at h
                      subst h
                      obtain ⟨n, hn, hlen⟩ := ih rs hpr
                      refine ⟨evs.length + n, ?_, ?_⟩
                      · rw [hn, except_bind_ok]
                      · have h1 := processEvents_length evs ps hpe
                        simp only [List.length_append]
                        omega

theorem processCountries_length (cs : List PyVal) (l : List UnderPick)
    (h : processCountries cs = .ok l) : ∃ n, countEventsC cs = .ok n ∧ l.length ≤ n := by
  induction cs generalizing l with
  | nil =>
      unfold processCountries at h
      cases h
      exact ⟨0, rfl, by simp⟩
  | cons c rest ih =>
      unfold processCountries at h
      unfold countEventsC
      cases hg : c.getD "tournaments" (.list []) with
      | error err =>
          rw [hg, except_bind_error] at h
          exact absurd h (by simp)
      | ok g =>
          rw [hg, except_bind_ok] at h
          cases hi : pyIter (pyOr g (.list [])) with
          | error err =>
              rw [hi, except_bind_error] at h
              exact absurd h (by simp)
          | ok ts =>
              rw [hi, except_bind_ok] at h
              rw [except_bind_ok, hi, except_bind_ok]
              cases hpt : processTourns ts with
              | error err =>
                  rw [hpt, except_bind_error] at h
                  exact absurd h (by simp)
              | ok ps =>
                  rw [hpt, except_bind_ok] at h
                  cases hpr : processCountries rest with
                  | error err =>
                      rw [hpr, except_bind_error] at h
                      exact absurd h (by simp)
                  | ok rs =>
                      rw [hpr, except_bind_ok] at h
                      simp only [Except.ok.injEq] at h
                      subst h
                      obtain ⟨n1, hn1, hl1⟩ := processTourns_length ts ps hpt
                      obtain ⟨n2, hn2, hl2⟩ := ih rs hpr
                      refine ⟨n1 + n2, ?_, ?_⟩
                      · rw [hn1, except_bind_ok, hn2, except_bind_ok]
                      · simp only [List.length_append]
                        omega

/-- Claim C1 (amended): each event yields at most one pick, so the number
of picks is bounded by the number of events visited; picks from distinct
events, however, may share an identity key (see the counterexample). -/
theorem extract_picks_at_most_one_pick_per_event (payload : PyVal) (l : List UnderPick)
    (h : extract_picks payload = .ok l) :
    ∃ n, countEvents payload = .ok n ∧ l.length ≤ n := by
  unfold extract_picks at h
  unfold countEvents
  cases hg : (pyOr payload (.dict [])).get "data" with
  | error err =>
      rw [hg, except_bind_error] at h
      exact absurd h (by simp)
  | ok dataJ =>
      rw [hg, except_bind_ok] at h
      rw [except_bind_ok]
      cases hc : (pyOr dataJ (.dict [])).get "countries" with
      | error err =>
          rw [hc, except_bind_error] at h
          exact absurd h (by simp)
      | ok countriesJ =>
          rw [hc, except_bind_ok] at h
          rw [except_bind_ok]
          cases hi : pyIter (pyOr countriesJ (.list [])) with
          | error err =>
              rw [hi, except_bind_error] at h
              exact absurd h (by simp)
          | ok cs =>
              rw [hi, except_bind_ok] at h
              rw [except_bind_ok]
              exact processCountries_length cs l h

/-- Claim C1 counterexample: a payload with two events carrying the same
id and the same line yields two distinct picks with equal identity keys in
one round. -/
theorem extract_picks_duplicate_key_counterexample :
    extract_picks dupPayload = .ok [pickG, pickG2] ∧
    pickG ≠ pickG2 ∧ pickG.key = pickG2.key := by
  refine ⟨rfl, ?_, rfl⟩
  intro h
  have : pickG.odd = pickG2.odd := by rw [h]
  exact absurd this (by decide)

/-- Claim C1 witness: the amended bound evaluated on the duplicate-key
payload. -/
theorem extract_picks_at_most_one_pick_per_event_witness :
    ∃ n, countEvents dupPayload = .ok n ∧ ([pickG, pickG2] : List UnderPick).length ≤ n :=
  extract_picks_at_most_one_pick_per_event dupPayload [pickG, pickG2] rfl

/-! ### Idempotence of a round on duplicate-free picks (claim C5) -/

theorem pairwise_key_unique {l : List UnderPick}
    (h : l.Pairwise fun p q => p.key ≠ q.key) :
    ∀ p ∈ l, ∀ q ∈ l, p.key = q.key → p = q := by
  induction l with
  | nil => simp
  | cons a l ih =>
      rw [List.pairwise_cons] at h
      obtain ⟨ha, hl⟩ := h
      intro p hp q hq hkey
      rcases List.mem_cons.mp hp with rfl | hp1
      · rcases List.mem_cons.mp hq with rfl | hq1
        · rfl
        · exact absurd hkey (ha q hq1)
      · rcases List.mem_cons.mp hq with rfl | hq1
        · exact absurd hkey.symm (ha p hp1)
        · exact ih hl p hp1 q hq1 hkey

theorem mem_of_mem_classify_fst {st : List (String × ℚ)} {picks : List UnderPick}
    {p : UnderPick} (h : p ∈ (classify st picks).1) : p ∈ picks := by
  rw [classify_eq] at h
  exact (List.mem_filter.mp h).1

theorem mem_of_mem_classify_snd {st : List (String × ℚ)} {picks : List UnderPick}
    {pc : UnderPick × ℚ} (h : pc ∈ (classify st picks).2) : pc.1 ∈ picks := by
  rw [classify_eq] at h
  obtain ⟨a, ha, hf⟩ := List.mem_filterMap.mp h
  unfold changedOf at hf
  split at hf
  · split at hf
    · cases hf; exact ha
    · exact absurd hf (by simp)
  · exact absurd hf (by simp)

theorem changedOf_spec {st : List (String × ℚ)} {p : UnderPick} {pc : UnderPick × ℚ}
    (h : changedOf st p = some pc) :
    pc.1 = p ∧ dget st p.key = some pc.2 ∧ p.odd ≠ pc.2 := by
  unfold changedOf at h
  split at h
  · split at h
    · rename_i prev hd ho
      cases h
      exact ⟨rfl, hd, ho⟩
    · exact absurd h (by simp)
  · exact absurd h (by simp)

theorem dget_newState_of_pairwise (st : List (String × ℚ)) (picks : List UnderPick)
    (hpw : picks.Pairwise fun p q => p.key ≠ q.key) (p : UnderPick) (hp : p ∈ picks) :
    dget (newState st picks) p.key = some p.odd := by
  have base :
      dget (newState st picks) p.key =
        match ((classify st picks).1.map (fun q => (q.key, q.odd)) ++
            (classify st picks).2.map fun pc => (pc.1.key, pc.1.odd)).reverse.find?
            (fun kv => kv.1 == p.key) with
        | some kv => some kv.2
        | Option.none => dget st p.key := by
    unfold newState updateState
    exact dget_foldl_dset _ st p.key
  have hval : ∀ kv ∈ ((classify st picks).1.map (fun q => (q.key, q.odd)) ++
      (classify st picks).2.map fun pc => (pc.1.key, pc.1.odd)), kv.1 = p.key → kv.2 = p.odd := by
    intro kv hkv hk
    rw [List.mem_append] at hkv
    rcases hkv with h | h
    · obtain ⟨q, hq, rfl⟩ := List.mem_map.mp h
      have hq' : q ∈ picks := mem_of_mem_classify_fst hq
      have := pairwise_key_unique hpw q hq' p hp hk
      rw [this]
    · obtain ⟨pc, hpc, rfl⟩ := List.mem_map.mp h
      have hq' : pc.1 ∈ picks := mem_of_mem_classify_snd hpc
      have := pairwise_key_unique hpw pc.1 hq' p hp hk
      rw [this]
  rw [base]
  cases hf : ((classify st picks).1.map (fun q => (q.key, q.odd)) ++
      (classify st picks).2.map fun pc => (pc.1.key, pc.1.odd)).reverse.find?
      (fun kv => kv.1 == p.key) with
  | some kv =>
      have hmem := List.mem_of_find?_eq_some hf
      have hpred := List.find?_some hf
      rw [List.mem_reverse] at hmem
      have hk1 : kv.1 = p.key := by simpa using hpred
      show some kv.2 = some p.odd
      rw [hval kv hmem hk1]
  | none =>
      rw [List.find?_eq_none] at hf
      show dget st p.key = some p.odd
      cases hd : dget st p.key with
      | none =>
          have hnew : p ∈ (classify st picks).1 :=
            (mem_classify_fst_iff st picks p).mpr ⟨hp, hd⟩
          have : (p.key, p.odd) ∈ ((classify st picks).1.map (fun q => (q.key, q.odd)) ++
              (classify st picks).2.map fun pc => (pc.1.key, pc.1.odd)).reverse := by
            rw [List.mem_reverse, List.mem_append]
            exact Or.inl (List.mem_map.mpr ⟨p, hnew, rfl⟩)
          exact absurd (by simp : ((p.key, p.odd).1 == p.key) = true) (hf _ this)
      | some v =>
          by_cases hv : p.odd = v
          · rw [hv]
          · have hchg : (p, v) ∈ (classify st picks).2 :=
              (mem_classify_snd_iff st picks p v).mpr ⟨hp, hd, hv⟩
            have : (p.key, p.odd) ∈ ((classify st picks).1.map (fun q => (q.key, q.odd)) ++
                (classify st picks).2.map fun pc => (pc.1.key, pc.1.odd)).reverse := by
              rw [List.mem_reverse, List.mem_append]
              exact Or.inr (List.mem_map.mpr ⟨(p, v), hchg, rfl⟩)
            exact absurd (by simp : ((p.key, p.odd).1 == p.key) = true) (hf _ this)

/-- Claim C5 (amended): after a round has extracted picks and updated the
state, re-running classification on the same picks yields zero New and
zero Changed picks — provided no two picks of the round share an identity
key (with a duplicated key the pick written later can re-classify the
earlier one as Changed; see the counterexample). -/
theorem second_round_no_new_no_changed (payload : PyVal) (l : List UnderPick)
    (st : List (String × ℚ)) (_hex : extract_picks payload = .ok l)
    (hpw : l.Pairwise fun p q => p.key ≠ q.key) :
    classify (newState st l) l = ([], []) := by
  rw [classify_eq]
  refine Prod.ext ?_ ?_
  · simp only [List.filter_eq_nil_iff]
    intro p hp
    rw [dget_newState_of_pairwise st l hpw p hp]
    simp
  · simp only [List.filterMap_eq_nil_iff]
    intro p hp
    unfold changedOf
    rw [dget_newState_of_pairwise st l hpw p hp]
    simp

/-- Claim C5 counterexample: on the duplicate-key payload, an honest first
round from the empty state leaves a state from which the second run of the
same payload classifies a pick as Changed — the claimed idempotence fails. -/
theorem second_round_changed_counterexample :
    extract_picks dupPayload = .ok [pickG, pickG2] ∧
    (classify (newState [] [pickG, pickG2]) [pickG, pickG2]).2 =
      [(pickG, mkRat 39 20)] := by
  exact ⟨rfl, rfl⟩

/-- Claim C5 witness: the amended idempotence evaluated on the one-event
payload. -/
theorem second_round_no_new_no_changed_witness :
    classify (newState [] [pickG]) [pickG] = ([], []) :=
  second_round_no_new_no_changed (mkPayload [goodEvent]) [pickG] [] rfl
    (by simp)

/-- Claim C2 witness: the characterization applied to a singleton round
against the empty state classifies the pick as New. -/
theorem classify_new_changed_unchanged_witness :
    pickG ∈ (classify [] [pickG]).1 :=
  (classify_new_changed_unchanged [] [pickG] pickG).1.mpr ⟨by simp, rfl⟩

/-- Claim C3 witness: the trace decomposition applied to a concrete round,
with the New pick's state write among the writes. -/
theorem state_writes_precede_sends_witness :
    roundTrace false [] [pickG] =
      stateWrites [] [pickG] ++ sendEffects false [] [pickG] ∧
    Effect.setState pickG.key pickG.odd ∈ stateWrites [] [pickG] := by
  refine ⟨(state_writes_precede_sends false [] [pickG]).1, ?_⟩
  refine (state_writes_precede_sends false [] [pickG]).2.2.2.1 pickG ?_
  have h0 : (classify [] [pickG]).1 = [pickG] := rfl
  rw [h0]
  simp

/-- Claim C10 witness: the frame property applied to a round with no picks
leaves a present entry present and unchanged. -/
theorem round_update_frame_witness :
    dget (newState [("a", mkRat 2 1)] []) "a" = dget [("a", mkRat 2 1)] "a" ∧
    (dget (newState [("a", mkRat 2 1)] []) "a").isSome = true := by
  have h0 : classify [("a", mkRat 2 1)] ([] : List UnderPick) = ([], []) := rfl
  constructor
  · refine (round_update_frame [("a", mkRat 2 1)] [] "a").1 ?_ ?_
    · intro p hp
      rw [h0] at hp
      exact absurd hp (by simp)
    · intro pc hpc
      rw [h0] at hpc
      exact absurd hpc (by simp)
  · exact (round_update_frame [("a", mkRat 2 1)] [] "a").2 (mkRat 2 1) rfl

/-! ### Formatting claims (C8 and C9) -/

/-- Claim C8: `fmt_odd` renders to two decimal places and strips trailing
zeros and a trailing decimal point: `2.50` to `"2.5"`, `3.00` to `"3"`,
`2.35` to `"2.35"`. -/
theorem fmt_odd_round_trip :
    fmt_odd (mkRat 5 2) = "2.5" ∧ fmt_odd (mkRat 3 1) = "3" ∧
      fmt_odd (mkRat 47 20) = "2.35" :=
  ⟨rfl, rfl, rfl⟩

theorem string_mk_length (l : List Char) : (⟨l⟩ : String).length = l.length := rfl

/-- Claim C9: the grouped message is the blank-line join of the per-pick
blocks, replaced by its first 4090 characters plus an ellipsis exactly when
the join exceeds 4096 characters — so it never exceeds 4096 characters. -/
theorem build_group_new_messages_cap (picks : List UnderPick) :
    build_group_new_messages picks =
      (if (String.intercalate "\n\n" (picks.map build_new_message)).length > 4096 then
        (⟨(String.intercalate "\n\n" (picks.map build_new_message)).data.take 4090⟩ : String)
          ++ "…"
       else String.intercalate "\n\n" (picks.map build_new_message)) ∧
    (build_group_new_messages picks).length ≤ 4096 := by
  refine ⟨rfl, ?_⟩
  unfold build_group_new_messages
  by_cases h : (String.intercalate "\n\n" (picks.map build_new_message)).length > 4096
  · rw [if_pos h, String.length_append, string_mk_length]
    have ht := List.length_take 4090
      (String.intercalate "\n\n" (picks.map build_new_message)).data
    have h1 : ("…" : String).length = 1 := rfl
    omega
  · rw [if_neg h]
    omega

/-! ### Shape tolerance (claim C7) -/

/-- Claim C7 counterexample: a truthy non-list `countries` section is not
treated as empty — iterating it raises `TypeError`, and `extract_picks`
propagates the exception instead of returning a list. -/
theorem extract_picks_truthy_nonlist_raises :
    extract_picks (.dict [("data", .dict [("countries", .int 42)])]) =
      .error .typeError := rfl

/-- Claim C7 (amended): a nesting level that is missing, null, or
otherwise falsy (false, 0, 0.0, empty string, empty list, empty dict) is
treated as an empty sequence and extraction returns successfully; a truthy
non-list value at a list level raises instead (see the counterexample). -/
theorem extract_picks_falsy_sections_empty (v : PyVal) (hv : v.truthy = false) :
    extract_picks .none = .ok [] ∧
    extract_picks (.dict []) = .ok [] ∧
    extract_picks (.dict [("data", v)]) = .ok [] ∧
    extract_picks (.dict [("data", .dict [("countries", v)])]) = .ok [] ∧
    extract_picks (payloadWithTournaments v) = .ok [] ∧
    extract_picks (payloadWithEvents v) = .ok [] ∧
    extract_picks (mkPayload [eventWithMarkets v]) = .ok [] ∧
    extract_picks (mkPayload [eventWithOptions v]) = .ok [] ∧
    extract_picks (mkPayload [eventNoMarkets]) = .ok [] := by
  cases v with
  | none => exact ⟨rfl, rfl, rfl, rfl, rfl, rfl, rfl, rfl, rfl⟩
  | bool b =>
      cases b
      · exact ⟨rfl, rfl, rfl, rfl, rfl, rfl, rfl, rfl, rfl⟩
      · exact absurd hv (by simp [PyVal.truthy])
  | int n =>
      obtain rfl : n = 0 := by simpa [PyVal.truthy] using hv
      exact ⟨rfl, rfl, rfl, rfl, rfl, rfl, rfl, rfl, rfl⟩
  | float q =>
      obtain rfl : q = 0 := by simpa [PyVal.truthy] using hv
      exact ⟨rfl, rfl, rfl, rfl, rfl, rfl, rfl, rfl, rfl⟩
  | str s =>
      obtain rfl : s = "" := by simpa [PyVal.truthy] using hv
      exact ⟨rfl, rfl, rfl, rfl, rfl, rfl, rfl, rfl, rfl⟩
  | list xs =>
      cases xs with
      | nil => exact ⟨rfl, rfl, rfl, rfl, rfl, rfl, rfl, rfl, rfl⟩
      | cons x xs => exact absurd hv (by simp [PyVal.truthy])
  | dict kvs =>
      cases kvs with
      | nil => exact ⟨rfl, rfl, rfl, rfl, rfl, rfl, rfl, rfl, rfl⟩
      | cons kv kvs => exact absurd hv (by simp [PyVal.truthy])

/-- Claim C7 witness: the amended tolerance evaluated at a null data
section. -/
theorem extract_picks_falsy_sections_empty_witness :
    extract_picks (.dict [("data", PyVal.none)]) = .ok [] :=
  (extract_picks_falsy_sections_empty .none rfl).2.2.1

/-! ### Matcher anchoring (claim C6) -/

theorem stripCI_decomp {lit s r : List Char} (h : stripCI lit s = some r) :
    ∃ pre, s = pre ++ r ∧ CiEq pre lit := by
  induction lit generalizing s with
  | nil =>
      unfold stripCI at h
      cases h
      exact ⟨[], rfl, rfl⟩
  | cons lc lit ih =>
      cases s with
      | nil => exact absurd h (by simp [stripCI])
      | cons c s =>
          unfold stripCI at h
          by_cases hc : lowerChar c = lowerChar lc
          · rw [if_pos hc] at h
            obtain ⟨pre, rfl, hci⟩ := ih h
            refine ⟨c :: pre, rfl, ?_⟩
            unfold CiEq at hci ⊢
            simp [hci, hc]
          · rw [if_neg hc] at h
            exact absurd h (by simp)

theorem dropWs_decomp (s : List Char) :
    ∃ w, s = w ++ dropWs s ∧ AllWs w := by
  refine ⟨s.takeWhile isWs, (List.takeWhile_append_dropWhile isWs s).symm, ?_⟩
  intro c hc
  exact List.mem_takeWhile_imp hc

theorem all_takeWhile (p : Char → Bool) (l : List Char) :
    (l.takeWhile p).all p = true := by
  rw [List.all_eq_true]
  intro c hc
  exact List.mem_takeWhile_imp hc

theorem parseNum_decomp {s num rest : List Char} (h : parseNum s = some (num, rest)) :
    s = num ++ rest ∧ NumShape num := by
  have hsplit := (List.takeWhile_append_dropWhile isDigitC s).symm
  unfold parseNum at h
  split at h
  · exact absurd h (by simp)
  · rename_i hd1
    have hne : s.takeWhile isDigitC ≠ [] := by
      simpa [List.isEmpty_iff] using hd1
    split at h
    · rename_i hdw
      cases h
      rw [hdw] at hsplit
      exact ⟨hsplit, hne, Or.inl (all_takeWhile isDigitC s)⟩
    · rename_i c rest1 hdw
      split at h
      · rename_i hc
        split at h
        · cases h
          rw [hdw] at hsplit
          exact ⟨hsplit, hne, Or.inl (all_takeWhile isDigitC s)⟩
        · rename_i hd2
          cases h
          have hne2 : rest1.takeWhile isDigitC ≠ [] := by
            simpa [List.isEmpty_iff] using hd2
          have hsplit2 := (List.takeWhile_append_dropWhile isDigitC rest1).symm
          constructor
          · rw [hdw] at hsplit
            conv_lhs => rw [hsplit, hsplit2]
            simp
          · exact ⟨by simp, Or.inr ⟨s.takeWhile isDigitC, c, rest1.takeWhile isDigitC,
              rfl, hne, hne2, all_takeWhile isDigitC s, all_takeWhile isDigitC rest1, hc⟩⟩
      · rename_i hc
        cases h
        rw [hdw] at hsplit
        exact ⟨hsplit, hne, Or.inl (all_takeWhile isDigitC s)⟩

theorem isWs_eq_false_of_isDigitC {c : Char} (h : isDigitC c = true) : isWs c = false := by
  unfold isDigitC at h
  unfold isWs
  rw [decide_eq_false_iff_not]
  rintro (rfl | rfl | rfl | rfl | rfl | rfl) <;> revert h <;> decide

theorem numShape_not_ws {num : List Char} (h : NumShape num) :
    ∀ c ∈ num, isWs c = false := by
  obtain ⟨hne, hcase⟩ := h
  intro c hc
  rcases hcase with hall | ⟨d1, c0, d2, rfl, hd1ne, hd2ne, h1, h2, hsep⟩
  · exact isWs_eq_false_of_isDigitC (List.all_eq_true.mp hall c hc)
  · rw [List.mem_append] at hc
    rcases hc with hc | hc
    · exact isWs_eq_false_of_isDigitC (List.all_eq_true.mp h1 c hc)
    · rcases List.mem_cons.mp hc with rfl | hc
      · rcases hsep with rfl | rfl <;> rfl
      · exact isWs_eq_false_of_isDigitC (List.all_eq_true.mp h2 c hc)

theorem dropWhile_eq_self_of_not {p : Char → Bool} {l : List Char}
    (h : ∀ c ∈ l, p c = false) : l.dropWhile p = l := by
  cases l with
  | nil => rfl
  | cons c l =>
      rw [List.dropWhile_cons, h c (by simp)]
      simp

theorem stripChars_eq_self {l : List Char} (h : ∀ c ∈ l, isWs c = false) :
    stripChars l = l := by
  unfold stripChars
  rw [dropWhile_eq_self_of_not h,
    dropWhile_eq_self_of_not (fun c hc => h c (List.mem_reverse.mp hc)),
    List.reverse_reverse]

theorem opt_bind_some {α β : Type} (a : α) (f : α → Option β) :
    (some a >>= f) = f a := rfl

theorem parse_line_sound (s num : String)
    (h : parse_line_from_option_name s = some num) :
    OptTemplate s.data num.data := by
  unfold parse_line_from_option_name at h
  split at h
  · exact absurd h (by simp)
  · obtain ⟨raw, hm, hnum⟩ := Option.map_eq_some'.mp h
    unfold matchOptUnder at hm
    cases h1 : stripCI "menos".data (dropWs s.data) with
    | none => rw [h1] at hm; simp at hm
    | some s1 =>
        rw [h1, opt_bind_some] at hm
        cases h2 : stripCI "de".data (dropWs s1) with
        | none => rw [h2] at hm; simp at hm
        | some s2 =>
            rw [h2, opt_bind_some] at hm
            cases h3 : parseNum (dropWs s2) with
            | none => rw [h3] at hm; simp at hm
            | some pr =>
                obtain ⟨rawc, s3⟩ := pr
                rw [h3, opt_bind_some] at hm
                change (if (dropWs s3).isEmpty = true then some rawc else Option.none) =
                  some raw at hm
                split at hm
                · rename_i hemp
                  rw [Option.some.injEq] at hm
                  subst hm
                  obtain ⟨w1, hw1, hw1w⟩ := dropWs_decomp s.data
                  obtain ⟨m, hmdec, hmci⟩ := stripCI_decomp h1
                  obtain ⟨w2, hw2, hw2w⟩ := dropWs_decomp s1
                  obtain ⟨d, hddec, hdci⟩ := stripCI_decomp h2
                  obtain ⟨w3, hw3, hw3w⟩ := dropWs_decomp s2
                  obtain ⟨hnumdec, hshape⟩ := parseNum_decomp h3
                  have hd3 : s3.dropWhile isWs = [] := by
                    simpa [List.isEmpty_iff, dropWs] using hemp
                  have hfull : s3.takeWhile isWs ++ [] = s3 := by
                    rw [← hd3]
                    exact List.takeWhile_append_dropWhile isWs s3
                  have hs3 : AllWs s3 := by
                    intro c hc
                    rw [← hfull, List.append_nil] at hc
                    exact List.mem_takeWhile_imp hc
                  have hnd : num.data = rawc := by
                    rw [← hnum]
                    exact stripChars_eq_self (numShape_not_ws hshape)
                  refine ⟨w1, m, w2, d, w3, s3, ?_, hw1w, hmci, hw2w, hdci, hw3w, ?_, hs3⟩
                  · rw [hnd, hw1, hmdec, hw2, hddec, hw3, hnumdec]
                    simp [List.append_assoc]
                  · rw [hnd]
                    exact hshape
                · exact absurd hm (by simp)

/-- Claim C6 counterexample: extra text after the title template is
accepted — `RE_HOME_FMT` carries no end anchor, so deviation beyond the
template does not make the matcher return "no match". -/
theorem title_rule_accepts_trailing_text :
    parse_under_from_home_text
      "Palmeiras (x) River Plate para ter menos de 1.5 gols na partida, e mais texto!" =
      some ("Palmeiras", "River Plate", "1.5") := rfl

/-- Claim C6 (amended): the option rule is anchored at both ends — every
accepted option label has exactly the template shape (case-insensitive,
inter-token whitespace runs possibly empty) — but the title rule is
anchored at the start only: appending anything to a matching title still
matches, with unchanged captures. -/
theorem matcher_anchoring :
    (∀ extra : String,
      parse_under_from_home_text
        ("Palmeiras (x) River Plate para ter menos de 1.5 gols na partida" ++ extra) =
        some ("Palmeiras", "River Plate", "1.5")) ∧
    (∀ s num : String, parse_line_from_option_name s = some num →
      OptTemplate s.data num.data) :=
  ⟨fun _ => rfl, parse_line_sound⟩

/-- Claim C6 witness: the anchoring facts evaluated at concrete inputs. -/
theorem matcher_anchoring_witness :
    parse_under_from_home_text
      ("Palmeiras (x) River Plate para ter menos de 1.5 gols na partida" ++ " ⚽") =
      some ("Palmeiras", "River Plate", "1.5") ∧
    OptTemplate (String.data " MENOS DE 2,5 ") (String.data "2,5") :=
  ⟨matcher_anchoring.1 " ⚽", matcher_anchoring.2 " MENOS DE 2,5 " "2,5" rfl⟩

/-! ### The float printer inverts on decimals (claim C4)

`pyFloatStr` is injective on the non-negative decimals, because `decodeDec`
recovers the value; identity keys therefore behave as tuples. -/

theorem digitsVal_foldl_init (a : ℕ) (l : List Char) :
    l.foldl (fun a c => 10 * a + charDigitVal c) a =
      a * 10 ^ l.length + digitsVal l := by
  induction l generalizing a with
  | nil => simp [digitsVal]
  | cons c l ih =>
      have hcons : digitsVal (c :: l) =
          (10 * 0 + charDigitVal c) * 10 ^ l.length + digitsVal l := by
        unfold digitsVal
        rw [List.foldl_cons]
        exact ih _
      rw [List.foldl_cons, ih (10 * a + charDigitVal c), hcons]
      simp only [List.length_cons, pow_succ]
      ring

theorem charDigitVal_digitChar {d : ℕ} (h : d < 10) :
    charDigitVal (Nat.digitChar d) = d := by
  interval_cases d <;> rfl

theorem digitsVal_natToDigitsAux (fuel : ℕ) :
    ∀ (n : ℕ) (acc : List Char), n ≤ fuel →
      digitsVal (natToDigitsAux fuel n acc) = n * 10 ^ acc.length + digitsVal acc := by
  induction fuel with
  | zero =>
      intro n acc hn
      interval_cases n
      simp [natToDigitsAux]
  | succ fuel ih =>
      intro n acc hn
      unfold natToDigitsAux
      by_cases h0 : n = 0
      · subst h0; simp
      · rw [if_neg h0]
        have hfuel : n / 10 ≤ fuel := by
          have := Nat.div_lt_self (Nat.pos_of_ne_zero h0) (by norm_num : 1 < 10)
          omega
        rw [ih (n / 10) _ hfuel]
        have hdig : digitsVal (Nat.digitChar (n % 10) :: acc) =
            n % 10 * 10 ^ acc.length + digitsVal acc := by
          unfold digitsVal
          rw [List.foldl_cons, digitsVal_foldl_init]
          rw [charDigitVal_digitChar (Nat.mod_lt n (by norm_num))]
          simp [digitsVal]
        rw [hdig]
        simp only [List.length_cons]
        have hdm : 10 * (n / 10) + n % 10 = n := Nat.div_add_mod n 10
        calc n / 10 * 10 ^ (acc.length + 1) + (n % 10 * 10 ^ acc.length + digitsVal acc)
            = (10 * (n / 10) + n % 10) * 10 ^ acc.length + digitsVal acc := by ring
          _ = n * 10 ^ acc.length + digitsVal acc := by rw [hdm]

theorem digitsVal_natToDigits (n : ℕ) : digitsVal (natToDigits n) = n := by
  unfold natToDigits
  by_cases h0 : n = 0
  · subst h0; decide
  · rw [if_neg h0, digitsVal_natToDigitsAux n n [] le_rfl]
    simp [digitsVal]

theorem natToDigitsAux_length (fuel : ℕ) :
    ∀ (n : ℕ) (acc : List Char) (j : ℕ), n ≤ fuel → n < 10 ^ j →
      (natToDigitsAux fuel n acc).length ≤ j + acc.length := by
  induction fuel with
  | zero =>
      intro n acc j hn _
      interval_cases n
      simp [natToDigitsAux]
  | succ fuel ih =>
      intro n acc j hn hlt
      unfold natToDigitsAux
      by_cases h0 : n = 0
      · subst h0; simp
      · rw [if_neg h0]
        obtain ⟨j1, rfl⟩ : ∃ j1, j = j1 + 1 := by
          refine ⟨j - 1, ?_⟩
          rcases Nat.eq_zero_or_pos j with rfl | hj
          · simp at hlt; omega
          · omega
        have hdiv : n / 10 < 10 ^ j1 := by
          rw [Nat.div_lt_iff_lt_mul (by norm_num : 0 < 10)]
          calc n < 10 ^ (j1 + 1) := hlt
            _ = 10 ^ j1 * 10 := by ring
        have hfuel : n / 10 ≤ fuel := by
          have := Nat.div_lt_self (Nat.pos_of_ne_zero h0) (by norm_num : 1 < 10)
          omega
        have := ih (n / 10) (Nat.digitChar (n % 10) :: acc) j1 hfuel hdiv
        simp only [List.length_cons] at this
        omega

theorem natToDigits_length {m k : ℕ} (hm : m < 10 ^ k) (hk : 1 ≤ k) :
    (natToDigits m).length ≤ k := by
  unfold natToDigits
  by_cases h0 : m = 0
  · rw [if_pos h0]
    simpa using hk
  · rw [if_neg h0]
    have := natToDigitsAux_length m m [] k le_rfl hm
    simpa using this

theorem natToDigitsAux_digits (fuel : ℕ) :
    ∀ (n : ℕ) (acc : List Char), (∀ c ∈ acc, isDigitC c = true) →
      ∀ c ∈ natToDigitsAux fuel n acc, isDigitC c = true := by
  induction fuel with
  | zero =>
      intro n acc hacc
      exact hacc
  | succ fuel ih =>
      intro n acc hacc
      unfold natToDigitsAux
      by_cases h0 : n = 0
      · rw [if_pos h0]; exact hacc
      · rw [if_neg h0]
        refine ih (n / 10) _ ?_
        intro c hc
        rcases List.mem_cons.mp hc with rfl | hc
        · have h10 : n % 10 < 10 := Nat.mod_lt n (by norm_num)
          interval_cases h : n % 10 <;> rfl
        · exact hacc c hc

theorem natToDigits_digits (n : ℕ) : ∀ c ∈ natToDigits n, isDigitC c = true := by
  unfold natToDigits
  by_cases h0 : n = 0
  · rw [if_pos h0]
    intro c hc
    rcases List.mem_singleton.mp hc with rfl
    rfl
  · rw [if_neg h0]
    exact natToDigitsAux_digits n n [] (by simp)

theorem digitsVal_replicate_zero_append (j : ℕ) (l : List Char) :
    digitsVal (List.replicate j '0' ++ l) = digitsVal l := by
  induction j with
  | zero => simp
  | succ j ih =>
      rw [List.replicate_succ, List.cons_append]
      unfold digitsVal
      rw [List.foldl_cons]
      have h0 : (10 * 0 + charDigitVal '0') = 0 := rfl
      rw [h0]
      exact ih

theorem fracChars_digitsVal {k m : ℕ} : digitsVal (fracChars k m) = m := by
  unfold fracChars
  rw [digitsVal_replicate_zero_append, digitsVal_natToDigits]

theorem fracChars_length {k m : ℕ} (hm : m < 10 ^ k) (hk : 1 ≤ k) :
    (fracChars k m).length = k := by
  unfold fracChars
  have hlen := natToDigits_length hm hk
  simp only [List.length_append, List.length_replicate]
  omega

theorem fracChars_digits {k m : ℕ} : ∀ c ∈ fracChars k m, isDigitC c = true := by
  intro c hc
  unfold fracChars at hc
  rw [List.mem_append] at hc
  rcases hc with hc | hc
  · rcases List.eq_of_mem_replicate hc with rfl
    rfl
  · exact natToDigits_digits m c hc

theorem minExpAux_dvd (fuel : ℕ) :
    ∀ (d j : ℕ), d ≤ fuel → d ∣ 10 ^ j → d ∣ 10 ^ minExpAux fuel d := by
  induction fuel with
  | zero =>
      intro d j hd hdvd
      have hd0 : d = 0 := by omega
      subst hd0
      have : (10 : ℕ) ^ j = 0 := Nat.eq_zero_of_zero_dvd hdvd
      exact absurd this (by positivity)
  | succ fuel ih =>
      intro d j hd hdvd
      unfold minExpAux
      by_cases h1 : d ≤ 1
      · rw [if_pos h1]
        interval_cases d
        · have : (10 : ℕ) ^ j = 0 := Nat.eq_zero_of_zero_dvd hdvd
          exact absurd this (by positivity)
        · simp
      · rw [if_neg h1]
        by_cases h2 : Nat.gcd d 10 ≤ 1
        · rw [if_pos h2]
          exfalso
          have hgpos : 0 < Nat.gcd d 10 := Nat.gcd_pos_of_pos_left 10 (by omega)
          have hco : Nat.Coprime d 10 := by
            unfold Nat.Coprime
            omega
          have hcp : Nat.Coprime d (10 ^ j) := hco.pow_right j
          have hgl : Nat.gcd d (10 ^ j) = d := Nat.gcd_eq_left hdvd
          unfold Nat.Coprime at hcp
          omega
        · rw [if_neg h2]
          have hgd : Nat.gcd d 10 ∣ d := Nat.gcd_dvd_left d 10
          have hg10 : Nat.gcd d 10 ∣ 10 := Nat.gcd_dvd_right d 10
          have hddg : d / Nat.gcd d 10 ∣ d :=
            ⟨Nat.gcd d 10, (Nat.div_mul_cancel hgd).symm⟩
          have hlt : d / Nat.gcd d 10 < d := Nat.div_lt_self (by omega) (by omega)
          have hrec := ih (d / Nat.gcd d 10) j (by omega) (dvd_trans hddg hdvd)
          have hmul : d = d / Nat.gcd d 10 * Nat.gcd d 10 := (Nat.div_mul_cancel hgd).symm
          calc d = d / Nat.gcd d 10 * Nat.gcd d 10 := hmul
            _ ∣ 10 ^ minExpAux fuel (d / Nat.gcd d 10) * 10 := mul_dvd_mul hrec hg10
            _ = 10 ^ (1 + minExpAux fuel (d / Nat.gcd d 10)) := by
                rw [pow_add, pow_one, mul_comm]

theorem minExpD_dvd {d j : ℕ} (hdvd : d ∣ 10 ^ j) : d ∣ 10 ^ minExpD d :=
  minExpAux_dvd d d j le_rfl hdvd

theorem isDecimal_den_dvd {q : ℚ} (h : IsDecimal q) : ∃ j, q.den ∣ 10 ^ j := by
  obtain ⟨n, k, rfl⟩ := h
  refine ⟨k, ?_⟩
  have h1 : ((n : ℚ) / 10 ^ k) = Rat.divInt (n : ℤ) ((10 : ℤ) ^ k) := by
    rw [Rat.divInt_eq_div]
    push_cast
    ring
  rw [h1]
  have h2 := Rat.den_dvd (n : ℤ) ((10 : ℤ) ^ k)
  have h3 : ((10 : ℤ) ^ k) = ((10 ^ k : ℕ) : ℤ) := by push_cast; ring
  rw [h3] at h2
  exact_mod_cast h2

theorem takeWhile_append_sep {p : Char → Bool} :
    ∀ {A : List Char} {x : Char} {B : List Char}, (∀ c ∈ A, p c = true) → p x = false →
      (A ++ x :: B).takeWhile p = A ∧ (A ++ x :: B).dropWhile p = x :: B := by
  intro A
  induction A with
  | nil =>
      intro x B _ hx
      constructor
      · rw [List.nil_append, List.takeWhile_cons_of_neg (by simp [hx])]
      · rw [List.nil_append, List.dropWhile_cons_of_neg (by simp [hx])]
  | cons a A ih =>
      intro x B hA hx
      have hpa : p a = true := hA a (by simp)
      obtain ⟨ht, hd⟩ := ih (fun c hc => hA c (by simp [hc])) hx
      constructor
      · rw [List.cons_append, List.takeWhile_cons_of_pos hpa, ht]
      · rw [List.cons_append, List.dropWhile_cons_of_pos hpa, hd]

theorem scaled_int {q : ℚ} {k : ℕ} (hq : 0 ≤ q) (hd : q.den ∣ 10 ^ k) :
    ((q.num.toNat * (10 ^ k / q.den) : ℕ) : ℚ) = q * 10 ^ k := by
  have hc : q.den * (10 ^ k / q.den) = 10 ^ k := Nat.mul_div_cancel' hd
  have hden : (q.den : ℚ) ≠ 0 := by positivity
  have hqd : (q.num : ℚ) = q * (q.den : ℚ) := (div_eq_iff hden).mp (Rat.num_div_den q)
  have hnum : ((q.num.toNat : ℕ) : ℚ) = ((q.num : ℤ) : ℚ) := by
    exact_mod_cast Int.toNat_of_nonneg (Rat.num_nonneg.mpr hq)
  calc ((q.num.toNat * (10 ^ k / q.den) : ℕ) : ℚ)
      = ((q.num.toNat : ℕ) : ℚ) * ((10 ^ k / q.den : ℕ) : ℚ) := by push_cast; ring
    _ = ((q.num : ℤ) : ℚ) * ((10 ^ k / q.den : ℕ) : ℚ) := by rw [hnum]
    _ = q * ((q.den : ℚ) * ((10 ^ k / q.den : ℕ) : ℚ)) := by rw [hqd]; ring
    _ = q * ((q.den * (10 ^ k / q.den) : ℕ) : ℚ) := by push_cast; ring
    _ = q * ((10 ^ k : ℕ) : ℚ) := by rw [hc]
    _ = q * 10 ^ k := by push_cast; ring

theorem decode_pyFloatStr {q : ℚ} (hq : 0 ≤ q) (hdec : IsDecimal q) :
    decodeDec (pyFloatStr q) = q := by
  obtain ⟨j, hj⟩ := isDecimal_den_dvd hdec
  have hdvd : q.den ∣ 10 ^ max 1 (minExpD q.den) :=
    dvd_trans (minExpD_dvd hj) (pow_dvd_pow 10 (le_max_right 1 (minExpD q.den)))
  have hk1 : 1 ≤ max 1 (minExpD q.den) := le_max_left 1 _
  have htq : ((q.num.toNat * (10 ^ max 1 (minExpD q.den) / q.den) : ℕ) : ℚ) =
      q * 10 ^ max 1 (minExpD q.den) := scaled_int hq hdvd
  set k := max 1 (minExpD q.den) with hk
  set t := q.num.toNat * (10 ^ k / q.den) with ht
  have hform : pyFloatStr q = natToDigits (t / 10 ^ k) ++ '.' :: fracChars k (t % 10 ^ k) :=
    rfl
  have hmod : t % 10 ^ k < 10 ^ k := Nat.mod_lt t (by positivity)
  have hsep := takeWhile_append_sep (p := fun c => c ≠ '.')
    (A := natToDigits (t / 10 ^ k)) (x := '.') (B := fracChars k (t % 10 ^ k))
    (fun c hc => by
      have hdig := natToDigits_digits _ c hc
      simp only [ne_eq, decide_eq_true_eq]
      intro hcontra
      subst hcontra
      revert hdig
      decide)
    (by decide)
  unfold decodeDec
  rw [hform, hsep.1, hsep.2, List.drop_one, List.tail_cons]
  change (digitsVal (natToDigits (t / 10 ^ k)) : ℚ) +
      (digitsVal (fracChars k (t % 10 ^ k)) : ℚ) / 10 ^ (fracChars k (t % 10 ^ k)).length = q
  rw [fracChars_length hmod hk1, fracChars_digitsVal, digitsVal_natToDigits]
  have h10 : ((10 : ℚ)) ^ k ≠ 0 := by positivity
  field_simp
  rw [← htq]
  have hdm : t / 10 ^ k * 10 ^ k + t % 10 ^ k = t := by
    have hx := Nat.div_add_mod t (10 ^ k)
    rw [mul_comm] at hx
    exact hx
  exact_mod_cast congrArg (fun n : ℕ => (n : ℚ)) hdm

theorem pyFloatStr_inj {q1 q2 : ℚ} (h1 : 0 ≤ q1) (hd1 : IsDecimal q1)
    (h2 : 0 ≤ q2) (hd2 : IsDecimal q2) (h : pyFloatStr q1 = pyFloatStr q2) : q1 = q2 := by
  rw [← decode_pyFloatStr h1 hd1, ← decode_pyFloatStr h2 hd2, h]

theorem isDigitC_ne_bar {c : Char} (h : isDigitC c = true) : c ≠ '|' := by
  intro hc
  subst hc
  revert h
  decide

theorem pyFloatStr_no_bar (q : ℚ) : ∀ c ∈ pyFloatStr q, c ≠ '|' := by
  intro c hc
  unfold pyFloatStr at hc
  rw [List.mem_append] at hc
  rcases hc with hc | hc
  · exact isDigitC_ne_bar (natToDigits_digits _ c hc)
  · rcases List.mem_cons.mp hc with rfl | hc
    · decide
    · exact isDigitC_ne_bar (fracChars_digits c hc)

theorem append_sep_inj {c : Char} :
    ∀ {u1 : List Char} {v1 u2 v2 : List Char}, c ∉ u1 → c ∉ u2 →
      u1 ++ c :: v1 = u2 ++ c :: v2 → u1 = u2 ∧ v1 = v2 := by
  intro u1
  induction u1 with
  | nil =>
      intro v1 u2 v2 _ h2 heq
      cases u2 with
      | nil => simpa using heq
      | cons d u2 =>
          rw [List.nil_append, List.cons_append, List.cons.injEq] at heq
          exact absurd (heq.1.symm ▸ List.mem_cons_self d u2 : c ∈ d :: u2) h2
  | cons d u1 ih =>
      intro v1 u2 v2 h1 h2 heq
      cases u2 with
      | nil =>
          rw [List.cons_append, List.nil_append, List.cons.injEq] at heq
          exact absurd (heq.1 ▸ List.mem_cons_self d u1 : c ∈ d :: u1) h1
      | cons e u2 =>
          rw [List.cons_append, List.cons_append, List.cons.injEq] at heq
          obtain ⟨rfl, heq2⟩ := heq
          obtain ⟨hu, hv⟩ := ih (fun hm => h1 (List.mem_cons_of_mem d hm))
            (fun hm => h2 (List.mem_cons_of_mem d hm)) heq2
          exact ⟨by rw [hu], hv⟩

theorem string_data_append (a b : String) : (a ++ b).data = a.data ++ b.data := rfl

theorem string_eq_of_data {a b : String} (h : a.data = b.data) : a = b := by
  cases a with
  | mk d1 =>
      cases b with
      | mk d2 => rw [show d1 = d2 from h]

theorem key_split {e1 e2 : String} {s1 s2 : List Char}
    (h1 : ∀ c ∈ s1, c ≠ '|') (h2 : ∀ c ∈ s2, c ≠ '|')
    (heq : e1 ++ "|under|" ++ (⟨s1⟩ : String) = e2 ++ "|under|" ++ (⟨s2⟩ : String)) :
    e1 = e2 ∧ s1 = s2 := by
  have hd : (e1.data ++ "|under".data) ++ '|' :: s1 =
      (e2.data ++ "|under".data) ++ '|' :: s2 := by
    have h0 := congrArg String.data heq
    rw [string_data_append, string_data_append, string_data_append, string_data_append] at h0
    simpa [List.append_assoc] using h0
  have hr : (List.reverse s1) ++ '|' :: List.reverse (e1.data ++ "|under".data) =
      (List.reverse s2) ++ '|' :: List.reverse (e2.data ++ "|under".data) := by
    have h0 := congrArg List.reverse hd
    simpa [List.reverse_append] using h0
  have hnb1 : '|' ∉ List.reverse s1 := by
    rw [List.mem_reverse]
    intro hm
    exact h1 '|' hm rfl
  have hnb2 : '|' ∉ List.reverse s2 := by
    rw [List.mem_reverse]
    intro hm
    exact h2 '|' hm rfl
  obtain ⟨hs, he⟩ := append_sep_inj hnb1 hnb2 hr
  have hs12 : s1 = s2 := by
    have := congrArg List.reverse hs
    simpa using this
  have he12 : e1.data ++ "|under".data = e2.data ++ "|under".data := by
    have := congrArg List.reverse he
    simpa using this
  exact ⟨string_eq_of_data (List.append_cancel_right he12), hs12⟩

theorem to_float_nonneg_decimal {s : String} {q : ℚ} (h : to_float s = some q) :
    0 ≤ q ∧ IsDecimal q := by
  unfold to_float at h
  split at h
  · exact absurd h (by simp)
  · unfold pyFloat? at h
    split at h
    · split at h
      · rw [Option.some.injEq] at h
        subst h
        rw [Rat.mkRat_eq_divInt, Rat.divInt_eq_div]
        constructor
        · positivity
        · exact ⟨_, 0, by push_cast; ring⟩
      · exact absurd h (by simp)
    · rename_i x0 hd0 fp0 heq0
      split at h
      · rw [Option.some.injEq] at h
        subst h
        rw [Rat.mkRat_eq_divInt, Rat.divInt_eq_div]
        constructor
        · positivity
        · refine ⟨digitsVal ((s.data.map (fun c => if c = ',' then '.' else c)).takeWhile
              (fun c => c ≠ '.')) * 10 ^ fp0.length + digitsVal fp0, fp0.length, ?_⟩
          push_cast
          ring
      · exact absurd h (by simp)

theorem make_line_eq (event_id home away line_raw : String) (odd : ℚ) :
    (UnderPick.make event_id home away line_raw odd).line =
      match to_float line_raw with
      | some l => if l = 0 then 0 else l
      | Option.none => 0 := rfl

theorem make_key_eq (event_id home away line_raw : String) (odd : ℚ) :
    (UnderPick.make event_id home away line_raw odd).key =
      event_id ++ "|under|" ++
        ((⟨pyFloatStr (UnderPick.make event_id home away line_raw odd).line⟩ : String)) := rfl

theorem make_line_nonneg_decimal (event_id home away line_raw : String) (odd : ℚ) :
    0 ≤ (UnderPick.make event_id home away line_raw odd).line ∧
      IsDecimal (UnderPick.make event_id home away line_raw odd).line := by
  rw [make_line_eq]
  cases hf : to_float line_raw with
  | none => exact ⟨le_refl 0, 0, 0, by norm_num⟩
  | some l =>
      by_cases h0 : l = 0
      · show 0 ≤ (if l = 0 then (0 : ℚ) else l) ∧ IsDecimal (if l = 0 then (0 : ℚ) else l)
        rw [if_pos h0]
        exact ⟨le_refl 0, 0, 0, by norm_num⟩
      · show 0 ≤ (if l = 0 then (0 : ℚ) else l) ∧ IsDecimal (if l = 0 then (0 : ℚ) else l)
        rw [if_neg h0]
        exact to_float_nonneg_decimal hf

/-- Claim C4: identity keys have tuple-equality semantics — two constructed
picks have equal keys exactly when their event ids are equal and their
numeric lines are equal; in particular the key does not depend on the
textual form of the line (see the witness with `"1.5"` and `"1,5"`). -/
theorem underPick_key_tuple_equality (eid1 hm1 aw1 lr1 : String) (od1 : ℚ)
    (eid2 hm2 aw2 lr2 : String) (od2 : ℚ) :
    (UnderPick.make eid1 hm1 aw1 lr1 od1).key = (UnderPick.make eid2 hm2 aw2 lr2 od2).key ↔
      eid1 = eid2 ∧
        (UnderPick.make eid1 hm1 aw1 lr1 od1).line =
          (UnderPick.make eid2 hm2 aw2 lr2 od2).line := by
  constructor
  · intro h
    obtain ⟨hq1, hd1⟩ := make_line_nonneg_decimal eid1 hm1 aw1 lr1 od1
    obtain ⟨hq2, hd2⟩ := make_line_nonneg_decimal eid2 hm2 aw2 lr2 od2
    rw [make_key_eq, make_key_eq] at h
    obtain ⟨he, hs⟩ := key_split (pyFloatStr_no_bar _) (pyFloatStr_no_bar _) h
    exact ⟨he, pyFloatStr_inj hq1 hd1 hq2 hd2 hs⟩
  · rintro ⟨he, hline⟩
    rw [make_key_eq, make_key_eq, hline, he]

/-- Claim C4 witness: two picks built from `"1.5"` and `"1,5"` with the
same event id have the same key, whatever their other fields. -/
theorem underPick_key_tuple_equality_witness :
    (UnderPick.make "7" "A" "B" "1.5" (mkRat 2 1)).key =
      (UnderPick.make "7" "C" "D" "1,5" (mkRat 3 1)).key :=
  (underPick_key_tuple_equality "7" "A" "B" "1.5" (mkRat 2 1) "7" "C" "D" "1,5"
    (mkRat 3 1)).mpr ⟨rfl, rfl⟩
